import Mathlib

/-!
Verification of the 2D Burgers finite-difference engine
(`src/parSrc/Burgers2P.cpp`, `src/serSrc/Burgers.cpp`, `src/Burgers.cpp`,
`src/Model.cpp`).

Conventions of the embedding:
* All arithmetic is exact rational arithmetic (`ℚ`) in place of `double`.
* A local velocity field is stored column-major in the source,
  `Vel[i*Nyr + j]` addressing column `i` (x-direction) and row `j`
  (y-direction).  The embedding represents a field as a total function
  `Grid = ℕ → ℕ → ℚ` indexed by `(i, j)`; `flat` recovers the flattened
  column-major view used by the combination loops and the BLAS `ddot`.
* The BLAS primitives `dsymm` / `dtrmm` (side `R` resp. `L`) are the exact
  dense matrix products `mulRight` / `mulLeft`; `ddot` is the dot product.
  The spec declares them external, exact and branch-free.
* `GenSymm`, `GenTrmm` and `MatMul` are declared in `serSrc/Helpers.h` but
  their implementation file is not part of `src/`; they are modelled from
  the spec (sections 4.1 and 4.3 step 5), as marked on each definition.
-/

/-- A local velocity component field, indexed by column `i` and row `j`
(the source stores it column-major as `Vel[i*Nyr+j]`). -/
def Grid : Type := ℕ → ℕ → ℚ

/-- Run parameters of the model relevant to the step engine:
time step `dt`, grid spacings `dx, dy`, linear advection `ax, ay`,
nonlinear advection strength `b`, diffusion `c`. -/
structure Params where
  dt : ℚ
  dx : ℚ
  dy : ℚ
  ax : ℚ
  ay : ℚ
  b : ℚ
  c : ℚ

/-- The four halo buffers `upVel/downVel/leftVel/rightVel` of
`Burgers2P`, refreshed by `SetCaches` every step. -/
structure Halo where
  up : ℕ → ℚ
  down : ℕ → ℚ
  left : ℕ → ℚ
  right : ℕ → ℚ

/-- Flattened, column-major view of a field: `flat nyr f k = f[i*nyr+j]`
with `i = k / nyr`, `j = k % nyr` — the indexing used by the elementwise
loops of `NextVelocityState` and by the BLAS vector calls. -/
def flat (nyr : ℕ) (f : Grid) : ℕ → ℚ := fun k => f (k / nyr) (k % nyr)

/-- BLAS `ddot`: dot product of the first `n` entries of two vectors. -/
def ddot (n : ℕ) (x y : ℕ → ℚ) : ℚ := ∑ k ∈ Finset.range n, x k * y k

/-- Modelled from the spec: `GenSymm` (declared in `serSrc/Helpers.h`;
its implementation file is not under `src/`) builds the symmetric
second-derivative operator of section 4.1: diagonal `alpha`, first
off-diagonals `beta`, zero elsewhere.  Entry `(k, l)` of the matrix. -/
def genSymm (alpha beta : ℚ) : ℕ → ℕ → ℚ := fun k l =>
  if k = l then alpha else if k + 1 = l ∨ l + 1 = k then beta else 0

/-- Modelled from the spec: `GenTrmm` (declared in `serSrc/Helpers.h`;
its implementation file is not under `src/`) builds the triangular
backward first-difference operator of section 4.1: diagonal `alpha`,
the adjacent off-diagonal `beta` on the super-diagonal when `upper`
(x-direction operator, applied as a right-multiply) and on the
sub-diagonal otherwise (y-direction operator, applied as a
left-multiply). -/
def genTrmm (alpha beta : ℚ) (upper : Bool) : ℕ → ℕ → ℚ := fun k l =>
  if k = l then alpha
  else if upper then (if k + 1 = l then beta else 0)
  else (if l + 1 = k then beta else 0)

/-- BLAS `dsymm`/`dtrmm` with side `R`: right-multiply the `nyr × nxr`
field `A` by the `nxr × nxr` operator `M`; entry at column `i`, row `j`. -/
def mulRight (nxr : ℕ) (A : Grid) (M : ℕ → ℕ → ℚ) : Grid :=
  fun i j => ∑ k ∈ Finset.range nxr, A k j * M k i

/-- BLAS `dsymm`/`dtrmm` with side `L`: left-multiply the field `A` by
the `nyr × nyr` operator `M`. -/
def mulLeft (nyr : ℕ) (M : ℕ → ℕ → ℚ) (A : Grid) : Grid :=
  fun i j => ∑ k ∈ Finset.range nyr, M j k * A i k

/-- Modelled from the spec: `MatMul` (declared in `serSrc/Helpers.h`;
its implementation file is not under `src/`), the shifted elementwise
product of section 4.3 step 5: `p · A[k-1 in the offset direction] · B[k]`,
zero at that direction's local-edge index before boundary correction;
with no offset, `p · A[k] · B[k]`. -/
def matMul (A B : Grid) (off_i off_j : Bool) (p : ℚ) : Grid :=
  fun i j =>
    let a :=
      if off_i then (if i = 0 then 0 else A (i - 1) j)
      else if off_j then (if j = 0 then 0 else A i (j - 1))
      else A i j
    p * a * B i j

/-- Helper `SetZeroes`: a zero buffer. -/
def setZeroes : ℕ → ℚ := fun _ => 0

/-- The four neighbour ranks of a worker on the process mesh; a negative
value is the "no neighbour" sentinel tested by `SetCaches` (`up < 0` …). -/
structure Neighbors where
  up : ℤ
  down : ℤ
  left : ℤ
  right : ℤ

/-- Embedding of `Burgers2P::SetCaches` after the four paired exchanges:
`recv` holds whatever the (external, exact) `MPI_Sendrecv` calls wrote
into the four buffers; each direction whose neighbour rank is the
sentinel is then overwritten with zeros (lines 374-378). -/
def setCaches (nb : Neighbors) (recv : Halo) : Halo :=
  { up := if nb.up < 0 then setZeroes else recv.up
    down := if nb.down < 0 then setZeroes else recv.down
    left := if nb.left < 0 then setZeroes else recv.left
    right := if nb.right < 0 then setZeroes else recv.right }

/-- The all-zero halo observed by a worker with no neighbours
(`Px = Py = 1`). -/
def zeroHalo : Halo :=
  { up := setZeroes, down := setZeroes, left := setZeroes, right := setZeroes }

/-- The field being updated: `Vel = SELECT_U ? Ui : Vi`. -/
def velAlias (Ui Vi : Grid) : Bool → Grid
  | true => Ui
  | false => Vi

/-- The companion field: `Other = SELECT_U ? Vi : Ui`. -/
def otherAlias (Ui Vi : Grid) : Bool → Grid
  | true => Vi
  | false => Ui

/-- Second x-derivative before boundary correction:
`dsymm('R','U', …)` with `GenSymm(-2c/dx², c/dx², Nxr, Nxr)`. -/
def dVel_dx_2_raw (P : Params) (nxr : ℕ) (Vel : Grid) : Grid :=
  mulRight nxr Vel (genSymm ((-2) * P.c / P.dx ^ 2) (P.c / P.dx ^ 2))

/-- Second y-derivative before boundary correction:
`dsymm('L','U', …)` with `GenSymm(-2c/dy², c/dy², Nyr, Nyr)`. -/
def dVel_dy_2_raw (P : Params) (nyr : ℕ) (Vel : Grid) : Grid :=
  mulLeft nyr (genSymm ((-2) * P.c / P.dy ^ 2) (P.c / P.dy ^ 2)) Vel

/-- First x-derivative before boundary correction:
`dtrmm('R','U','N','N', …)` with `GenTrmm(ax/dx, -ax/dx, …, upper)`. -/
def dVel_dx_raw (P : Params) (nxr : ℕ) (Vel : Grid) : Grid :=
  mulRight nxr Vel (genTrmm (P.ax / P.dx) (-(P.ax / P.dx)) true)

/-- First y-derivative before boundary correction:
`dtrmm('L','L','N','N', …)` with `GenTrmm(ay/dy, -ay/dy, …, lower)`. -/
def dVel_dy_raw (P : Params) (nyr : ℕ) (Vel : Grid) : Grid :=
  mulLeft nyr (genTrmm (P.ay / P.dy) (-(P.ay / P.dy)) false) Vel

/-- `dVel_dx_2` after `UpdateBoundsLinear`: add `c/dx²·leftVel[j]` in the
left edge column and `c/dx²·rightVel[j]` in the right edge column. -/
def dVel_dx_2_corr (P : Params) (nxr : ℕ) (Vel : Grid) (h : Halo) : Grid :=
  fun i j =>
    dVel_dx_2_raw P nxr Vel i j
      + (if i = 0 then P.c / P.dx ^ 2 * h.left j else 0)
      + (if i = nxr - 1 then P.c / P.dx ^ 2 * h.right j else 0)

/-- `dVel_dy_2` after `UpdateBoundsLinear`: add `c/dy²·upVel[i]` in the
top row and `c/dy²·downVel[i]` in the bottom row. -/
def dVel_dy_2_corr (P : Params) (nyr : ℕ) (Vel : Grid) (h : Halo) : Grid :=
  fun i j =>
    dVel_dy_2_raw P nyr Vel i j
      + (if j = 0 then P.c / P.dy ^ 2 * h.up i else 0)
      + (if j = nyr - 1 then P.c / P.dy ^ 2 * h.down i else 0)

/-- `dVel_dx` after `UpdateBoundsLinear`: subtract `ax/dx·leftVel[j]` in
the left edge column. -/
def dVel_dx_corr (P : Params) (nxr : ℕ) (Vel : Grid) (h : Halo) : Grid :=
  fun i j =>
    dVel_dx_raw P nxr Vel i j - (if i = 0 then P.ax / P.dx * h.left j else 0)

/-- `dVel_dy` after `UpdateBoundsLinear`: subtract `ay/dy·upVel[i]` in
the top row. -/
def dVel_dy_corr (P : Params) (nyr : ℕ) (Vel : Grid) (h : Halo) : Grid :=
  fun i j =>
    dVel_dy_raw P nyr Vel i j - (if j = 0 then P.ay / P.dy * h.up i else 0)

/-- `Vel_Vel`: self nonlinear term, coefficient `b/dx` when solving for u
and `b/dy` when solving for v (lines 252 and 260). -/
def velVel (P : Params) (Vel : Grid) (sel : Bool) : Grid :=
  matMul Vel Vel false false (cond sel (P.b / P.dx) (P.b / P.dy))

/-- `Vel_Other`: cross nonlinear term, coefficient `b/dy` when solving
for u and `b/dx` when solving for v (lines 253 and 261). -/
def velOther (P : Params) (Vel Other : Grid) (sel : Bool) : Grid :=
  matMul Vel Other false false (cond sel (P.b / P.dy) (P.b / P.dx))

/-- `Vel_Vel_Minus_1` after `UpdateBoundsNonLinear`: own-direction
backward self term.  For u (x is the own direction): `MatMul` offset in
`i` with coefficient `b/dx`, the left edge column overwritten with
`b/dx·leftVel[j]·Vel[j]`.  For v (y is the own direction): offset in `j`
with coefficient `b/dy`, the top row overwritten with
`b/dy·upVel[i]·Vel[i*Nyr]`. -/
def velVelMinus1 (P : Params) (Vel : Grid) (h : Halo) : Bool → Grid
  | true => fun i j =>
      if i = 0 then P.b / P.dx * h.left j * Vel i j
      else matMul Vel Vel true false (P.b / P.dx) i j
  | false => fun i j =>
      if j = 0 then P.b / P.dy * h.up i * Vel i j
      else matMul Vel Vel false true (P.b / P.dy) i j

/-- `Vel_Other_Minus_1` after `UpdateBoundsNonLinear`: cross-direction
backward term.  For u: `MatMul` offset in `j` with coefficient `b/dy`,
the top row overwritten with `b/dy·upVel[i]·Other[i*Nyr]`.  For v:
offset in `i` with coefficient `b/dx`, the left edge column overwritten
with `b/dx·leftVel[j]·Other[j]`. -/
def velOtherMinus1 (P : Params) (Vel Other : Grid) (h : Halo) : Bool → Grid
  | true => fun i j =>
      if j = 0 then P.b / P.dy * h.up i * Other i j
      else matMul Vel Other false true (P.b / P.dy) i j
  | false => fun i j =>
      if i = 0 then P.b / P.dx * h.left j * Other i j
      else matMul Vel Other true false (P.b / P.dx) i j

/-- Embedding of `Burgers2P::NextVelocityState` (the per-step engine):
derivative evaluation, boundary correction, then the combination loop
`NextVel[i] = (dVel_dx_2 + dVel_dy_2 - dVel_dx - dVel_dy - (Vel_Vel +
Vel_Other - Vel_Vel_Minus_1 - Vel_Other_Minus_1)) * dt + Vel[i]`.
The halo is the result of `SetCaches(Vel)`, supplied by the caller. -/
def nextVelocityState (P : Params) (nxr nyr : ℕ) (Ui Vi : Grid)
    (h : Halo) (sel : Bool) : Grid :=
  fun i j =>
    (dVel_dx_2_corr P nxr (velAlias Ui Vi sel) h i j
        + dVel_dy_2_corr P nyr (velAlias Ui Vi sel) h i j
        - dVel_dx_corr P nxr (velAlias Ui Vi sel) h i j
        - dVel_dy_corr P nyr (velAlias Ui Vi sel) h i j
        - (velVel P (velAlias Ui Vi sel) sel i j
            + velOther P (velAlias Ui Vi sel) (otherAlias Ui Vi sel) sel i j
            - velVelMinus1 P (velAlias Ui Vi sel) h sel i j
            - velOtherMinus1 P (velAlias Ui Vi sel) (otherAlias Ui Vi sel) h sel i j))
      * P.dt + velAlias Ui Vi sel i j

/-- One iteration of the loop body of `Burgers2P::SetIntegratedVelocity`:
`NextU` and `NextV` are both computed from the current `(U, V)` pair
(the members are only mutated afterwards, by `CopyAndDelete`), then the
pair is committed at once.  `haloOf` abstracts `SetCaches`, which reads
only the field being updated. -/
def stepBoth (P : Params) (nxr nyr : ℕ) (haloOf : Grid → Halo)
    (UV : Grid × Grid) : Grid × Grid :=
  (nextVelocityState P nxr nyr UV.1 UV.2 (haloOf UV.1) true,
   nextVelocityState P nxr nyr UV.1 UV.2 (haloOf UV.2) false)

/-- Embedding of `Burgers2P::SetIntegratedVelocity` run for `n` steps
from a given initial pair. -/
def setIntegratedVelocity (P : Params) (nxr nyr : ℕ) (haloOf : Grid → Halo)
    (UV0 : Grid × Grid) : ℕ → Grid × Grid
  | 0 => UV0
  | n + 1 => stepBoth P nxr nyr haloOf (setIntegratedVelocity P nxr nyr haloOf UV0 n)

/-- One worker's local state as seen by the energy probe. -/
structure Worker where
  nxr : ℕ
  nyr : ℕ
  Ui : Grid
  Vi : Grid

/-- Local half of `Burgers2P::CalculateEnergyState` (lines 195-199):
`0.5 * (ddot(U,U) + ddot(V,V)) * dx*dy` over the flattened local field. -/
def localEnergyState (P : Params) (w : Worker) : ℚ :=
  (1 / 2) * (ddot (w.nyr * w.nxr) (flat w.nyr w.Ui) (flat w.nyr w.Ui)
      + ddot (w.nyr * w.nxr) (flat w.nyr w.Vi) (flat w.nyr w.Vi)) * (P.dx * P.dy)

/-- Modelled from the spec: the external `MPI_Allreduce(…, MPI_SUM, …)`
collective — every rank receives the sum of all ranks' contributions
(spec section 4.4). -/
def allreduceSum (xs : List ℚ) : ℚ := xs.sum

/-- Embedding of `Burgers2P::CalculateEnergyState` as observed by the
worker of the given rank: its local energy enters the sum-reduction and
the reduced value is returned.  The result a rank observes is the
reduction over the whole worker list. -/
def calculateEnergyState (P : Params) (ws : List Worker) (_rank : ℕ) : ℚ :=
  allreduceSum (ws.map (fun w => localEnergyState P w))

/-- Embedding of the single-process `Burgers::SetEnergy` of
`serSrc/Burgers.cpp` (lines 162-177): `0.5*(ddot(U,U)+ddot(V,V))*dx*dy`. -/
def serSetEnergy (P : Params) (nxr nyr : ℕ) (Ui Vi : Grid) : ℚ :=
  (1 / 2) * (ddot (nyr * nxr) (flat nyr Ui) (flat nyr Ui)
      + ddot (nyr * nxr) (flat nyr Vi) (flat nyr Vi)) * (P.dx * P.dy)

/-- Embedding of `Burgers::SetEnergy` of the unpartitioned variant
`src/Burgers.cpp` (lines 177-195): `E[k] = 0.5*(ddot(U,U)+ddot(V,V))`,
with no `dx*dy` factor. -/
def rootSetEnergy (nxr nyr : ℕ) (Uk Vk : Grid) : ℚ :=
  (1 / 2) * (ddot (nyr * nxr) (flat nyr Uk) (flat nyr Uk)
      + ddot (nyr * nxr) (flat nyr Vk) (flat nyr Vk))

/-- The radial bump profile assigned by `Burgers2P::SetInitialVelocity`
(and `serSrc` `Burgers::SetInitialVelocity`):
`(r <= 1.0) ? 2.0*pow(1.0-r,4.0)*(4.0*r+1.0) : 0.0`. -/
def initialProfile (r : ℚ) : ℚ := if r ≤ 1 then 2 * (1 - r) ^ 4 * (4 * r + 1) else 0

/-- The `U` array after `Burgers2P::SetInitialVelocity` (lines 82-90).
`R i j` stands for `ComputeR(x, y)` at the grid point of cell `(i, j)`
(a real square root, hence kept abstract over `ℚ`); the loop stores
`initialProfile (R i j)` into `U[i*Nyr+j]`. -/
def setInitialVelocityU (R : ℕ → ℕ → ℚ) : Grid := fun i j => initialProfile (R i j)

/-- The `V` array after `Burgers2P::SetInitialVelocity` (lines 82-90):
the same expression as the `U` assignment, evaluated at the same point. -/
def setInitialVelocityV (R : ℕ → ℕ → ℚ) : Grid := fun i j => initialProfile (R i j)

/-- Write index of `Burgers::SetInitialVelocity` in the unpartitioned
variant `src/Burgers.cpp` (line 80): the store `U0[(i-1)*Nyr+(j-1)]`
with `Nyr = Ny-2`, in C `int` arithmetic (hence over `ℤ`). -/
def rootWriteIndex (Ny i j : ℤ) : ℤ := (i - 1) * (Ny - 2) + (j - 1)

/-- The run parameters parsed by `Model::ParseParameters` from the
command line: `ax ay b c Lx Ly T`. -/
structure RunArgs where
  ax : ℚ
  ay : ℚ
  b : ℚ
  c : ℚ
  Lx : ℚ
  Ly : ℚ
  T : ℚ

/-- Embedding of `Model::IsValid` (Model.cpp lines 61-63). -/
def modelIsValid (m : RunArgs) : Bool :=
  decide (0 ≤ m.ax ∧ 0 ≤ m.ay ∧ 0 ≤ m.b ∧ 0 ≤ m.c ∧ 0 ≤ m.Lx ∧ 0 ≤ m.Ly ∧ 0 ≤ m.T)

/-- Observable outcome of running the `Model` constructor
(Model.cpp lines 16-24): whether construction terminated the run,
whether `SetNumerics` ran (so `dx, dy, dt, x0, y0` are defined), and
whether a diagnostic was printed. -/
structure ConstructOutcome where
  aborted : Bool
  numericsSet : Bool
  diagnosticPrinted : Bool
deriving DecidableEq

/-- Embedding of the `Model` constructor: `ParseParameters` throws on a
wrong argument count (`argcIs8 = false`), the constructor catches the
exception and only prints it; `ValidateParameters` then prints a warning
when `IsValid()` fails, and calls `SetNumerics` otherwise.  No path
aborts: the constructor always returns normally. -/
def modelConstruct (argcIs8 : Bool) (m : RunArgs) : ConstructOutcome :=
  { aborted := false
    numericsSet := modelIsValid m
    diagnosticPrinted := !argcIs8 || !modelIsValid m }

/-- Displacement of block `p` in one grid direction: the sum of the
extents of the blocks before it (the `displ` tables of the external
`GridTopology` service). -/
def displ (s : ℕ → ℕ) (p : ℕ) : ℕ := ∑ k ∈ Finset.range p, s k

/-- State of a multi-worker run: each mesh position `(p, q)` owns its
local `(U, V)` pair. -/
def MState : Type := ℕ → ℕ → Grid × Grid

/-- Halo buffers of block `(p, q)` for one velocity component, as
produced by `SetCaches`: each exchange receives the neighbouring
sub-block's boundary row or column (`myDownVel` of the up neighbour is
its row `Nyr-1`, `myRightVel` of the left neighbour is its column
`Nxr-1`, …), and a direction with the sentinel rank is zero-filled.
`W p q` is the component field of block `(p, q)`. -/
def blockHalo (Px Py : ℕ) (sx sy : ℕ → ℕ) (W : ℕ → ℕ → Grid) (p q : ℕ) : Halo :=
  setCaches
    { up := if q = 0 then -1 else 0
      down := if q + 1 = Py then -1 else 0
      left := if p = 0 then -1 else 0
      right := if p + 1 = Px then -1 else 0 }
    { up := fun i => W p (q - 1) i (sy (q - 1) - 1)
      down := fun i => W p (q + 1) i 0
      left := fun j => W (p - 1) q (sx (p - 1) - 1) j
      right := fun j => W (p + 1) q 0 j }

/-- One lockstep time step of the multi-worker run: every block computes
`NextU` from the exchanged `U` halos and `NextV` from the exchanged `V`
halos, both from the pre-step state, and commits the pair. -/
def multiStep (P : Params) (Px Py : ℕ) (sx sy : ℕ → ℕ) (S : MState) : MState :=
  fun p q =>
    (nextVelocityState P (sx p) (sy q) (S p q).1 (S p q).2
        (blockHalo Px Py sx sy (fun a b => (S a b).1) p q) true,
     nextVelocityState P (sx p) (sy q) (S p q).1 (S p q).2
        (blockHalo Px Py sx sy (fun a b => (S a b).2) p q) false)

/-- The multi-worker run after `n` steps. -/
def multiRun (P : Params) (Px Py : ℕ) (sx sy : ℕ → ℕ) (S0 : MState) : ℕ → MState
  | 0 => S0
  | n + 1 => multiStep P Px Py sx sy (multiRun P Px Py sx sy S0 n)

/-- Restriction of a global field to block `(p, q)` of the decomposition:
local cell `(i, j)` is global cell `(displX p + i, displY q + j)`. -/
def restrGrid (sx sy : ℕ → ℕ) (G : Grid) (p q : ℕ) : Grid :=
  fun i j => G (displ sx p + i) (displ sy q + j)

/-- Initial multi-worker state: every block holds the restriction of the
global initial fields. -/
def restrState (sx sy : ℕ → ℕ) (GU GV : Grid) : MState :=
  fun p q => (restrGrid sx sy GU p q, restrGrid sx sy GV p q)

/-- The single-worker run (`Px = Py = 1`): no neighbours, so every
`SetCaches` zero-fills all four halo buffers. -/
def singleRun (P : Params) (NxG NyG : ℕ) (GU GV : Grid) (n : ℕ) : Grid × Grid :=
  setIntegratedVelocity P NxG NyG (fun _ => zeroHalo) (GU, GV) n


/-- Diagonal entry of the generated symmetric operator. -/
lemma genSymm_diag (alpha beta : ℚ) (k : ℕ) : genSymm alpha beta k k = alpha := by
  simp [genSymm]

/-- First off-diagonal entry of the generated symmetric operator. -/
lemma genSymm_off (alpha beta : ℚ) (k l : ℕ) (h : k + 1 = l ∨ l + 1 = k) :
    genSymm alpha beta k l = beta := by
  unfold genSymm
  rw [if_neg (by omega), if_pos h]

/-- Entries of the generated symmetric operator away from the band. -/
lemma genSymm_far (alpha beta : ℚ) (k l : ℕ) (h1 : ¬ k = l)
    (h2 : ¬ (k + 1 = l ∨ l + 1 = k)) : genSymm alpha beta k l = 0 := by
  unfold genSymm
  rw [if_neg h1, if_neg h2]

/-- The generated second-derivative operator is a symmetric matrix. -/
lemma genSymm_symm (alpha beta : ℚ) (k l : ℕ) :
    genSymm alpha beta k l = genSymm alpha beta l k := by
  by_cases h : k = l
  · subst h
    rfl
  by_cases h2 : k + 1 = l ∨ l + 1 = k
  · rw [genSymm_off alpha beta k l h2, genSymm_off alpha beta l k (by omega)]
  · rw [genSymm_far alpha beta k l h h2, genSymm_far alpha beta l k (by omega) (by omega)]

/-- Diagonal entry of the generated triangular operator. -/
lemma genTrmm_diag (alpha beta : ℚ) (u : Bool) (k : ℕ) :
    genTrmm alpha beta u k k = alpha := by
  simp [genTrmm]

/-- Super-diagonal entry of the upper triangular operator. -/
lemma genTrmmU_off (alpha beta : ℚ) (k l : ℕ) (h : k + 1 = l) :
    genTrmm alpha beta true k l = beta := by
  unfold genTrmm
  rw [if_neg (by omega)]
  simp [h]

/-- Zero entries of the upper triangular operator. -/
lemma genTrmmU_far (alpha beta : ℚ) (k l : ℕ) (h1 : ¬ k = l) (h2 : ¬ k + 1 = l) :
    genTrmm alpha beta true k l = 0 := by
  unfold genTrmm
  rw [if_neg h1]
  simp [h2]

/-- Sub-diagonal entry of the lower triangular operator. -/
lemma genTrmmL_off (alpha beta : ℚ) (k l : ℕ) (h : l + 1 = k) :
    genTrmm alpha beta false k l = beta := by
  unfold genTrmm
  rw [if_neg (by omega)]
  simp [h]

/-- Zero entries of the lower triangular operator. -/
lemma genTrmmL_far (alpha beta : ℚ) (k l : ℕ) (h1 : ¬ k = l) (h2 : ¬ l + 1 = k) :
    genTrmm alpha beta false k l = 0 := by
  unfold genTrmm
  rw [if_neg h1]
  simp [h2]

/-- Column `i` of the symmetric tridiagonal operator collapses a full
row-sum to the three-point stencil. -/
lemma sum_genSymm_col (alpha beta : ℚ) (n : ℕ) (f : ℕ → ℚ) (i : ℕ) (hi : i < n) :
    ∑ k ∈ Finset.range n, f k * genSymm alpha beta k i
      = alpha * f i + (if i = 0 then 0 else beta * f (i - 1))
        + (if i + 1 = n then 0 else beta * f (i + 1)) := by
  rcases i with _ | m
  · have h1 : ∀ k ∈ Finset.range n, f k * genSymm alpha beta k 0
        = (if k = 0 then alpha * f 0 else 0) + (if k = 1 then beta * f 1 else 0) := by
      intro k _
      rcases (by omega : k = 0 ∨ k = 1 ∨ (k ≠ 0 ∧ k ≠ 1)) with h | h | ⟨ha, hb⟩
      · subst h
        rw [genSymm_diag, if_pos rfl, if_neg (by omega)]
        ring
      · subst h
        rw [genSymm_off alpha beta 1 0 (by omega), if_neg (by omega), if_pos rfl]
        ring
      · rw [genSymm_far alpha beta k 0 (by omega) (by omega), if_neg ha, if_neg hb]
        ring
    rw [Finset.sum_congr rfl h1, Finset.sum_add_distrib,
      Finset.sum_ite_eq' (Finset.range n) 0 (fun _ => alpha * f 0),
      Finset.sum_ite_eq' (Finset.range n) 1 (fun _ => beta * f 1)]
    simp only [Finset.mem_range]
    by_cases h2 : (1 : ℕ) < n
    · rw [if_pos hi, if_pos h2, if_neg (by omega : ¬ (0 + 1 = n))]
      simp
    · rw [if_pos hi, if_neg h2, if_pos (by omega : 0 + 1 = n)]
      simp
  · have h1 : ∀ k ∈ Finset.range n, f k * genSymm alpha beta k (m + 1)
        = (if k = m + 1 then alpha * f (m + 1) else 0)
          + (if k = m then beta * f m else 0)
          + (if k = m + 2 then beta * f (m + 2) else 0) := by
      intro k _
      rcases (by omega : k = m + 1 ∨ k = m ∨ k = m + 2 ∨ (k ≠ m + 1 ∧ k ≠ m ∧ k ≠ m + 2))
        with h | h | h | ⟨ha, hb, hc⟩
      · subst h
        rw [genSymm_diag, if_pos rfl, if_neg (by omega), if_neg (by omega)]
        ring
      · rw [h, genSymm_off alpha beta m (m + 1) (by omega), if_neg (by omega : ¬ m = m + 1),
          if_pos rfl, if_neg (by omega : ¬ m = m + 2)]
        ring
      · subst h
        rw [genSymm_off alpha beta (m + 2) (m + 1) (by omega), if_neg (by omega),
          if_neg (by omega), if_pos rfl]
        ring
      · rw [genSymm_far alpha beta k (m + 1) (by omega) (by omega), if_neg ha, if_neg hb,
          if_neg hc]
        ring
    rw [Finset.sum_congr rfl h1, Finset.sum_add_distrib, Finset.sum_add_distrib,
      Finset.sum_ite_eq' (Finset.range n) (m + 1) (fun _ => alpha * f (m + 1)),
      Finset.sum_ite_eq' (Finset.range n) m (fun _ => beta * f m),
      Finset.sum_ite_eq' (Finset.range n) (m + 2) (fun _ => beta * f (m + 2))]
    simp only [Finset.mem_range]
    by_cases h2 : m + 2 < n
    · rw [if_pos hi, if_pos (by omega : m < n), if_pos h2, if_neg (by omega : ¬ m + 1 = 0),
        if_neg (by omega : ¬ m + 1 + 1 = n)]
      norm_num
    · rw [if_pos hi, if_pos (by omega : m < n), if_neg h2, if_neg (by omega : ¬ m + 1 = 0),
        if_pos (by omega : m + 1 + 1 = n)]
      norm_num

/-- Row `j` of the symmetric operator collapses likewise (used for the
left-multiplied y-direction operator). -/
lemma sum_genSymm_row (alpha beta : ℚ) (n : ℕ) (g : ℕ → ℚ) (j : ℕ) (hj : j < n) :
    ∑ k ∈ Finset.range n, genSymm alpha beta j k * g k
      = alpha * g j + (if j = 0 then 0 else beta * g (j - 1))
        + (if j + 1 = n then 0 else beta * g (j + 1)) := by
  have h1 : ∀ k ∈ Finset.range n, genSymm alpha beta j k * g k
      = g k * genSymm alpha beta k j := by
    intro k _
    rw [genSymm_symm alpha beta j k]
    ring
  rw [Finset.sum_congr rfl h1, sum_genSymm_col alpha beta n g j hj]

/-- Column `i` of the upper-triangular backward-difference operator
collapses a full row-sum to the two-point stencil. -/
lemma sum_genTrmm_col (alpha beta : ℚ) (n : ℕ) (f : ℕ → ℚ) (i : ℕ) (hi : i < n) :
    ∑ k ∈ Finset.range n, f k * genTrmm alpha beta true k i
      = alpha * f i + (if i = 0 then 0 else beta * f (i - 1)) := by
  rcases i with _ | m
  · have h1 : ∀ k ∈ Finset.range n, f k * genTrmm alpha beta true k 0
        = (if k = 0 then alpha * f 0 else 0) := by
      intro k _
      rcases (by omega : k = 0 ∨ k ≠ 0) with h | h
      · subst h
        rw [genTrmm_diag, if_pos rfl]
        ring
      · rw [genTrmmU_far alpha beta k 0 (by omega) (by omega), if_neg h]
        ring
    rw [Finset.sum_congr rfl h1,
      Finset.sum_ite_eq' (Finset.range n) 0 (fun _ => alpha * f 0)]
    simp only [Finset.mem_range]
    rw [if_pos hi]
    simp
  · have h1 : ∀ k ∈ Finset.range n, f k * genTrmm alpha beta true k (m + 1)
        = (if k = m + 1 then alpha * f (m + 1) else 0)
          + (if k = m then beta * f m else 0) := by
      intro k _
      rcases (by omega : k = m + 1 ∨ k = m ∨ (k ≠ m + 1 ∧ k ≠ m)) with h | h | ⟨ha, hb⟩
      · subst h
        rw [genTrmm_diag, if_pos rfl, if_neg (by omega)]
        ring
      · rw [h, genTrmmU_off alpha beta m (m + 1) rfl, if_neg (by omega : ¬ m = m + 1),
          if_pos rfl]
        ring
      · rw [genTrmmU_far alpha beta k (m + 1) (by omega) (by omega), if_neg ha, if_neg hb]
        ring
    rw [Finset.sum_congr rfl h1, Finset.sum_add_distrib,
      Finset.sum_ite_eq' (Finset.range n) (m + 1) (fun _ => alpha * f (m + 1)),
      Finset.sum_ite_eq' (Finset.range n) m (fun _ => beta * f m)]
    simp only [Finset.mem_range]
    rw [if_pos hi, if_pos (by omega : m < n), if_neg (by omega : ¬ m + 1 = 0)]
    norm_num

/-- Row `j` of the lower-triangular backward-difference operator
collapses likewise. -/
lemma sum_genTrmm_row (alpha beta : ℚ) (n : ℕ) (g : ℕ → ℚ) (j : ℕ) (hj : j < n) :
    ∑ k ∈ Finset.range n, genTrmm alpha beta false j k * g k
      = alpha * g j + (if j = 0 then 0 else beta * g (j - 1)) := by
  have h1 : ∀ k ∈ Finset.range n, genTrmm alpha beta false j k * g k
      = g k * genTrmm alpha beta true k j := by
    intro k _
    by_cases h : j = k
    · subst h
      rw [genTrmm_diag, genTrmm_diag]
      ring
    by_cases h2 : k + 1 = j
    · rw [genTrmmL_off alpha beta j k h2, genTrmmU_off alpha beta k j h2]
      ring
    · rw [genTrmmL_far alpha beta j k h h2, genTrmmU_far alpha beta k j (by omega) h2]
      ring
  rw [Finset.sum_congr rfl h1, sum_genTrmm_col alpha beta n g j hj]

/-- Pointwise value of the boundary-corrected second x-derivative: the
three-point stencil with the halo standing in for the missing neighbour
column at the sub-block edges. -/
lemma dVel_dx_2_point (P : Params) (nxr : ℕ) (Vel : Grid) (h : Halo) (i j : ℕ)
    (hi : i < nxr) :
    dVel_dx_2_corr P nxr Vel h i j
      = P.c / P.dx ^ 2 * ((if i = 0 then h.left j else Vel (i - 1) j)
          - 2 * Vel i j + (if i + 1 = nxr then h.right j else Vel (i + 1) j)) := by
  unfold dVel_dx_2_corr dVel_dx_2_raw mulRight
  rw [sum_genSymm_col ((-2) * P.c / P.dx ^ 2) (P.c / P.dx ^ 2) nxr (fun k => Vel k j) i hi]
  by_cases h0 : i = 0 <;> by_cases h1 : i + 1 = nxr
  · rw [if_pos h0, if_pos h1, if_pos h0, if_pos h1, if_pos h0,
      if_pos (by omega : i = nxr - 1)]
    ring
  · rw [if_pos h0, if_neg h1, if_pos h0, if_neg h1, if_pos h0,
      if_neg (by omega : ¬ i = nxr - 1)]
    ring
  · rw [if_neg h0, if_pos h1, if_neg h0, if_pos h1, if_neg h0,
      if_pos (by omega : i = nxr - 1)]
    ring
  · rw [if_neg h0, if_neg h1, if_neg h0, if_neg h1, if_neg h0,
      if_neg (by omega : ¬ i = nxr - 1)]
    ring

/-- Pointwise value of the boundary-corrected second y-derivative. -/
lemma dVel_dy_2_point (P : Params) (nyr : ℕ) (Vel : Grid) (h : Halo) (i j : ℕ)
    (hj : j < nyr) :
    dVel_dy_2_corr P nyr Vel h i j
      = P.c / P.dy ^ 2 * ((if j = 0 then h.up i else Vel i (j - 1))
          - 2 * Vel i j + (if j + 1 = nyr then h.down i else Vel i (j + 1))) := by
  unfold dVel_dy_2_corr dVel_dy_2_raw mulLeft
  rw [sum_genSymm_row ((-2) * P.c / P.dy ^ 2) (P.c / P.dy ^ 2) nyr (fun k => Vel i k) j hj]
  by_cases h0 : j = 0 <;> by_cases h1 : j + 1 = nyr
  · rw [if_pos h0, if_pos h1, if_pos h0, if_pos h1, if_pos h0,
      if_pos (by omega : j = nyr - 1)]
    ring
  · rw [if_pos h0, if_neg h1, if_pos h0, if_neg h1, if_pos h0,
      if_neg (by omega : ¬ j = nyr - 1)]
    ring
  · rw [if_neg h0, if_pos h1, if_neg h0, if_pos h1, if_neg h0,
      if_pos (by omega : j = nyr - 1)]
    ring
  · rw [if_neg h0, if_neg h1, if_neg h0, if_neg h1, if_neg h0,
      if_neg (by omega : ¬ j = nyr - 1)]
    ring

/-- Pointwise value of the boundary-corrected first x-derivative: the
backward difference with the halo at the left sub-block edge. -/
lemma dVel_dx_point (P : Params) (nxr : ℕ) (Vel : Grid) (h : Halo) (i j : ℕ)
    (hi : i < nxr) :
    dVel_dx_corr P nxr Vel h i j
      = P.ax / P.dx * (Vel i j - (if i = 0 then h.left j else Vel (i - 1) j)) := by
  unfold dVel_dx_corr dVel_dx_raw mulRight
  rw [sum_genTrmm_col (P.ax / P.dx) (-(P.ax / P.dx)) nxr (fun k => Vel k j) i hi]
  by_cases h0 : i = 0
  · rw [if_pos h0, if_pos h0, if_pos h0]
    ring
  · rw [if_neg h0, if_neg h0, if_neg h0]
    ring

/-- Pointwise value of the boundary-corrected first y-derivative. -/
lemma dVel_dy_point (P : Params) (nyr : ℕ) (Vel : Grid) (h : Halo) (i j : ℕ)
    (hj : j < nyr) :
    dVel_dy_corr P nyr Vel h i j
      = P.ay / P.dy * (Vel i j - (if j = 0 then h.up i else Vel i (j - 1))) := by
  unfold dVel_dy_corr dVel_dy_raw mulLeft
  rw [sum_genTrmm_row (P.ay / P.dy) (-(P.ay / P.dy)) nyr (fun k => Vel i k) j hj]
  by_cases h0 : j = 0
  · rw [if_pos h0, if_pos h0, if_pos h0]
    ring
  · rw [if_neg h0, if_neg h0, if_neg h0]
    ring

/-- Pointwise value of the corrected own-direction backward self term. -/
lemma velVelMinus1_point (P : Params) (Vel : Grid) (h : Halo) (sel : Bool) (i j : ℕ) :
    velVelMinus1 P Vel h sel i j
      = cond sel
          (P.b / P.dx * (if i = 0 then h.left j else Vel (i - 1) j) * Vel i j)
          (P.b / P.dy * (if j = 0 then h.up i else Vel i (j - 1)) * Vel i j) := by
  cases sel
  · show (if j = 0 then P.b / P.dy * h.up i * Vel i j
          else matMul Vel Vel false true (P.b / P.dy) i j)
        = P.b / P.dy * (if j = 0 then h.up i else Vel i (j - 1)) * Vel i j
    by_cases h0 : j = 0
    · rw [if_pos h0, if_pos h0]
    · rw [if_neg h0, if_neg h0]
      simp [matMul, h0]
  · show (if i = 0 then P.b / P.dx * h.left j * Vel i j
          else matMul Vel Vel true false (P.b / P.dx) i j)
        = P.b / P.dx * (if i = 0 then h.left j else Vel (i - 1) j) * Vel i j
    by_cases h0 : i = 0
    · rw [if_pos h0, if_pos h0]
    · rw [if_neg h0, if_neg h0]
      simp [matMul, h0]

/-- Pointwise value of the corrected cross-direction backward term. -/
lemma velOtherMinus1_point (P : Params) (Vel Other : Grid) (h : Halo) (sel : Bool)
    (i j : ℕ) :
    velOtherMinus1 P Vel Other h sel i j
      = cond sel
          (P.b / P.dy * (if j = 0 then h.up i else Vel i (j - 1)) * Other i j)
          (P.b / P.dx * (if i = 0 then h.left j else Vel (i - 1) j) * Other i j) := by
  cases sel
  · show (if i = 0 then P.b / P.dx * h.left j * Other i j
          else matMul Vel Other true false (P.b / P.dx) i j)
        = P.b / P.dx * (if i = 0 then h.left j else Vel (i - 1) j) * Other i j
    by_cases h0 : i = 0
    · rw [if_pos h0, if_pos h0]
    · rw [if_neg h0, if_neg h0]
      simp [matMul, h0]
  · show (if j = 0 then P.b / P.dy * h.up i * Other i j
          else matMul Vel Other false true (P.b / P.dy) i j)
        = P.b / P.dy * (if j = 0 then h.up i else Vel i (j - 1)) * Other i j
    by_cases h0 : j = 0
    · rw [if_pos h0, if_pos h0]
    · rw [if_neg h0, if_neg h0]
      simp [matMul, h0]

/-- Pointwise value of the nonlinear self term. -/
lemma velVel_point (P : Params) (Vel : Grid) (sel : Bool) (i j : ℕ) :
    velVel P Vel sel i j = cond sel (P.b / P.dx) (P.b / P.dy) * Vel i j * Vel i j := by
  cases sel <;> rfl

/-- Pointwise value of the nonlinear cross term. -/
lemma velOther_point (P : Params) (Vel Other : Grid) (sel : Bool) (i j : ℕ) :
    velOther P Vel Other sel i j
      = cond sel (P.b / P.dy) (P.b / P.dx) * Vel i j * Other i j := by
  cases sel <;> rfl

/-- The value of one cell of the next state as a function of the values
the stencil actually reads: the centre values `vc` (of `Vel`) and `oc`
(of `Other`) and the four neighbour values `L, R, Uu, D` of `Vel` (field
or halo). -/
def stepClosed (P : Params) (vc oc L R Uu D : ℚ) (sel : Bool) : ℚ :=
  (P.c / P.dx ^ 2 * (L - 2 * vc + R) + P.c / P.dy ^ 2 * (Uu - 2 * vc + D)
      - P.ax / P.dx * (vc - L) - P.ay / P.dy * (vc - Uu)
      - (cond sel (P.b / P.dx) (P.b / P.dy) * vc * vc
          + cond sel (P.b / P.dy) (P.b / P.dx) * vc * oc
          - cond sel (P.b / P.dx * L * vc) (P.b / P.dy * Uu * vc)
          - cond sel (P.b / P.dy * Uu * oc) (P.b / P.dx * L * oc)))
    * P.dt + vc

/-- `NextVelocityState` evaluated at an interior cell equals the closed
five-point form: the whole-row operator products collapse to the stencil
and the boundary corrections substitute the halo at the edges. -/
lemma nextVelocityState_closed (P : Params) (nxr nyr : ℕ) (Ui Vi : Grid) (h : Halo)
    (sel : Bool) (i j : ℕ) (hi : i < nxr) (hj : j < nyr) :
    nextVelocityState P nxr nyr Ui Vi h sel i j
      = stepClosed P (velAlias Ui Vi sel i j) (otherAlias Ui Vi sel i j)
          (if i = 0 then h.left j else velAlias Ui Vi sel (i - 1) j)
          (if i + 1 = nxr then h.right j else velAlias Ui Vi sel (i + 1) j)
          (if j = 0 then h.up i else velAlias Ui Vi sel i (j - 1))
          (if j + 1 = nyr then h.down i else velAlias Ui Vi sel i (j + 1))
          sel := by
  unfold nextVelocityState stepClosed
  rw [dVel_dx_2_point P nxr (velAlias Ui Vi sel) h i j hi,
    dVel_dy_2_point P nyr (velAlias Ui Vi sel) h i j hj,
    dVel_dx_point P nxr (velAlias Ui Vi sel) h i j hi,
    dVel_dy_point P nyr (velAlias Ui Vi sel) h i j hj,
    velVel_point, velOther_point, velVelMinus1_point, velOtherMinus1_point]

/-- Displacement of block `0` is zero. -/
lemma displ_zero (s : ℕ → ℕ) : displ s 0 = 0 := rfl

/-- Displacement of block `p+1`: one more block extent. -/
lemma displ_succ (s : ℕ → ℕ) (p : ℕ) : displ s (p + 1) = displ s p + s p :=
  Finset.sum_range_succ s p

/-- Displacements are monotone in the block index. -/
lemma displ_le (s : ℕ → ℕ) {p r : ℕ} (h : p ≤ r) : displ s p ≤ displ s r :=
  Finset.sum_le_sum_of_subset (Finset.range_subset.mpr h)

/-- A block with positive extent starts strictly before the end of the
partitioned axis. -/
lemma displ_lt (s : ℕ → ℕ) {p r : ℕ} (hpos : ∀ k, k < r → 0 < s k) (h : p < r) :
    displ s p < displ s r := by
  have h1 : displ s (p + 1) ≤ displ s r := displ_le s (by omega)
  have h2 : displ s (p + 1) = displ s p + s p := displ_succ s p
  have h3 : 0 < s p := hpos p (by omega)
  omega

/-- The value the stencil reads one column to the left — halo at the
sub-block edge, own field inside — equals the global-grid read with zero
ghost values, at the corresponding global cell. -/
lemma read_left (Px Py NxG : ℕ) (sx sy : ℕ → ℕ)
    (hsx : ∀ k, k < Px → 0 < sx k) (hNx : displ sx Px = NxG)
    (W : ℕ → ℕ → Grid) (G : Grid)
    (hW : ∀ a b, a < Px → b < Py → ∀ x y, x < sx a → y < sy b →
        W a b x y = G (displ sx a + x) (displ sy b + y))
    (p q i j : ℕ) (hp : p < Px) (hq : q < Py) (hi : i < sx p) (hj : j < sy q) :
    (if i = 0 then (blockHalo Px Py sx sy W p q).left j else W p q (i - 1) j)
      = (if displ sx p + i = 0 then (0 : ℚ)
          else G (displ sx p + i - 1) (displ sy q + j)) := by
  by_cases h0 : i = 0
  · subst h0
    by_cases hp0 : p = 0
    · subst hp0
      simp [blockHalo, setCaches, setZeroes, displ]
    · have hp1 : p - 1 < Px := by omega
      have hsp : 0 < sx (p - 1) := hsx _ hp1
      have hd2 : displ sx p = displ sx (p - 1) + sx (p - 1) := by
        conv_lhs => rw [show p = (p - 1) + 1 by omega]
        exact displ_succ sx (p - 1)
      rw [if_pos rfl]
      show (blockHalo Px Py sx sy W p q).left j = _
      simp only [blockHalo, setCaches]
      rw [if_neg hp0, if_neg (by norm_num : ¬ (0 : ℤ) < 0),
        hW (p - 1) q hp1 hq (sx (p - 1) - 1) j (by omega) hj,
        if_neg (by omega : ¬ displ sx p + 0 = 0),
        (by omega : displ sx (p - 1) + (sx (p - 1) - 1) = displ sx p + 0 - 1)]
  · rw [if_neg h0, hW p q hp hq (i - 1) j (by omega) hj,
      if_neg (by omega : ¬ displ sx p + i = 0),
      (by omega : displ sx p + (i - 1) = displ sx p + i - 1)]

/-- The value the stencil reads one column to the right. -/
lemma read_right (Px Py NxG : ℕ) (sx sy : ℕ → ℕ)
    (hsx : ∀ k, k < Px → 0 < sx k) (hNx : displ sx Px = NxG)
    (W : ℕ → ℕ → Grid) (G : Grid)
    (hW : ∀ a b, a < Px → b < Py → ∀ x y, x < sx a → y < sy b →
        W a b x y = G (displ sx a + x) (displ sy b + y))
    (p q i j : ℕ) (hp : p < Px) (hq : q < Py) (hi : i < sx p) (hj : j < sy q) :
    (if i + 1 = sx p then (blockHalo Px Py sx sy W p q).right j else W p q (i + 1) j)
      = (if displ sx p + i + 1 = NxG then (0 : ℚ)
          else G (displ sx p + i + 1) (displ sy q + j)) := by
  have hd2 : displ sx (p + 1) = displ sx p + sx p := displ_succ sx p
  by_cases h1 : i + 1 = sx p
  · rw [if_pos h1]
    by_cases hpPx : p + 1 = Px
    · have hdPx : displ sx (p + 1) = NxG := by rw [hpPx, hNx]
      show (blockHalo Px Py sx sy W p q).right j = _
      simp only [blockHalo, setCaches]
      rw [if_pos hpPx, if_pos (by norm_num : (-1 : ℤ) < 0),
        if_pos (by omega : displ sx p + i + 1 = NxG)]
      rfl
    · have hp2 : p + 1 < Px := by omega
      have hlt : displ sx (p + 1) < displ sx Px := displ_lt sx hsx hp2
      show (blockHalo Px Py sx sy W p q).right j = _
      simp only [blockHalo, setCaches]
      rw [if_neg hpPx, if_neg (by norm_num : ¬ (0 : ℤ) < 0),
        hW (p + 1) q hp2 hq 0 j (hsx _ hp2) hj,
        if_neg (by omega : ¬ displ sx p + i + 1 = NxG),
        (by omega : displ sx (p + 1) + 0 = displ sx p + i + 1)]
  · have hle : displ sx (p + 1) ≤ displ sx Px := displ_le sx (by omega)
    rw [if_neg h1, hW p q hp hq (i + 1) j (by omega) hj,
      if_neg (by omega : ¬ displ sx p + i + 1 = NxG),
      (by omega : displ sx p + (i + 1) = displ sx p + i + 1)]

/-- The value the stencil reads one row up. -/
lemma read_up (Px Py NyG : ℕ) (sx sy : ℕ → ℕ)
    (hsy : ∀ k, k < Py → 0 < sy k) (hNy : displ sy Py = NyG)
    (W : ℕ → ℕ → Grid) (G : Grid)
    (hW : ∀ a b, a < Px → b < Py → ∀ x y, x < sx a → y < sy b →
        W a b x y = G (displ sx a + x) (displ sy b + y))
    (p q i j : ℕ) (hp : p < Px) (hq : q < Py) (hi : i < sx p) (hj : j < sy q) :
    (if j = 0 then (blockHalo Px Py sx sy W p q).up i else W p q i (j - 1))
      = (if displ sy q + j = 0 then (0 : ℚ)
          else G (displ sx p + i) (displ sy q + j - 1)) := by
  by_cases h0 : j = 0
  · subst h0
    by_cases hq0 : q = 0
    · subst hq0
      simp [blockHalo, setCaches, setZeroes, displ]
    · have hq1 : q - 1 < Py := by omega
      have hsq : 0 < sy (q - 1) := hsy _ hq1
      have hd2 : displ sy q = displ sy (q - 1) + sy (q - 1) := by
        conv_lhs => rw [show q = (q - 1) + 1 by omega]
        exact displ_succ sy (q - 1)
      rw [if_pos rfl]
      show (blockHalo Px Py sx sy W p q).up i = _
      simp only [blockHalo, setCaches]
      rw [if_neg hq0, if_neg (by norm_num : ¬ (0 : ℤ) < 0),
        hW p (q - 1) hp hq1 i (sy (q - 1) - 1) hi (by omega),
        if_neg (by omega : ¬ displ sy q + 0 = 0),
        (by omega : displ sy (q - 1) + (sy (q - 1) - 1) = displ sy q + 0 - 1)]
  · rw [if_neg h0, hW p q hp hq i (j - 1) hi (by omega),
      if_neg (by omega : ¬ displ sy q + j = 0),
      (by omega : displ sy q + (j - 1) = displ sy q + j - 1)]

/-- The value the stencil reads one row down. -/
lemma read_down (Px Py NyG : ℕ) (sx sy : ℕ → ℕ)
    (hsy : ∀ k, k < Py → 0 < sy k) (hNy : displ sy Py = NyG)
    (W : ℕ → ℕ → Grid) (G : Grid)
    (hW : ∀ a b, a < Px → b < Py → ∀ x y, x < sx a → y < sy b →
        W a b x y = G (displ sx a + x) (displ sy b + y))
    (p q i j : ℕ) (hp : p < Px) (hq : q < Py) (hi : i < sx p) (hj : j < sy q) :
    (if j + 1 = sy q then (blockHalo Px Py sx sy W p q).down i else W p q i (j + 1))
      = (if displ sy q + j + 1 = NyG then (0 : ℚ)
          else G (displ sx p + i) (displ sy q + j + 1)) := by
  have hd2 : displ sy (q + 1) = displ sy q + sy q := displ_succ sy q
  by_cases h1 : j + 1 = sy q
  · rw [if_pos h1]
    by_cases hqPy : q + 1 = Py
    · have hdPy : displ sy (q + 1) = NyG := by rw [hqPy, hNy]
      show (blockHalo Px Py sx sy W p q).down i = _
      simp only [blockHalo, setCaches]
      rw [if_pos hqPy, if_pos (by norm_num : (-1 : ℤ) < 0),
        if_pos (by omega : displ sy q + j + 1 = NyG)]
      rfl
    · have hq2 : q + 1 < Py := by omega
      have hlt : displ sy (q + 1) < displ sy Py := displ_lt sy hsy hq2
      show (blockHalo Px Py sx sy W p q).down i = _
      simp only [blockHalo, setCaches]
      rw [if_neg hqPy, if_neg (by norm_num : ¬ (0 : ℤ) < 0),
        hW p (q + 1) hp hq2 i 0 hi (hsy _ hq2),
        if_neg (by omega : ¬ displ sy q + j + 1 = NyG),
        (by omega : displ sy (q + 1) + 0 = displ sy q + j + 1)]
  · have hle : displ sy (q + 1) ≤ displ sy Py := displ_le sy (by omega)
    rw [if_neg h1, hW p q hp hq i (j + 1) hi (by omega),
      if_neg (by omega : ¬ displ sy q + j + 1 = NyG),
      (by omega : displ sy q + (j + 1) = displ sy q + j + 1)]

/-- One `NextVelocityState` call for the `U` component on a sub-block,
with halos exchanged from the neighbouring blocks' `U` fields, computes
exactly the value the single-worker (zero-halo) engine computes at the
corresponding global cell. -/
lemma blockNext_U (P : Params) (Px Py NxG NyG : ℕ) (sx sy : ℕ → ℕ)
    (hsx : ∀ k, k < Px → 0 < sx k) (hsy : ∀ k, k < Py → 0 < sy k)
    (hNx : displ sx Px = NxG) (hNy : displ sy Py = NyG)
    (SU SV : ℕ → ℕ → Grid) (GU GV : Grid)
    (hU : ∀ a b, a < Px → b < Py → ∀ x y, x < sx a → y < sy b →
        SU a b x y = GU (displ sx a + x) (displ sy b + y))
    (hV : ∀ a b, a < Px → b < Py → ∀ x y, x < sx a → y < sy b →
        SV a b x y = GV (displ sx a + x) (displ sy b + y))
    (p q i j : ℕ) (hp : p < Px) (hq : q < Py) (hi : i < sx p) (hj : j < sy q) :
    nextVelocityState P (sx p) (sy q) (SU p q) (SV p q)
        (blockHalo Px Py sx sy SU p q) true i j
      = nextVelocityState P NxG NyG GU GV zeroHalo true
          (displ sx p + i) (displ sy q + j) := by
  have hd2x : displ sx (p + 1) = displ sx p + sx p := displ_succ sx p
  have hd2y : displ sy (q + 1) = displ sy q + sy q := displ_succ sy q
  have hlex : displ sx (p + 1) ≤ displ sx Px := displ_le sx (by omega)
  have hley : displ sy (q + 1) ≤ displ sy Py := displ_le sy (by omega)
  have hgi : displ sx p + i < NxG := by omega
  have hgj : displ sy q + j < NyG := by omega
  rw [nextVelocityState_closed P (sx p) (sy q) (SU p q) (SV p q)
      (blockHalo Px Py sx sy SU p q) true i j hi hj,
    nextVelocityState_closed P NxG NyG GU GV zeroHalo true
      (displ sx p + i) (displ sy q + j) hgi hgj]
  simp only [velAlias, otherAlias, zeroHalo, setZeroes]
  rw [read_left Px Py NxG sx sy hsx hNx SU GU hU p q i j hp hq hi hj,
    read_right Px Py NxG sx sy hsx hNx SU GU hU p q i j hp hq hi hj,
    read_up Px Py NyG sx sy hsy hNy SU GU hU p q i j hp hq hi hj,
    read_down Px Py NyG sx sy hsy hNy SU GU hU p q i j hp hq hi hj,
    hU p q hp hq i j hi hj, hV p q hp hq i j hi hj]

/-- One `NextVelocityState` call for the `V` component on a sub-block,
with halos exchanged from the neighbouring blocks' `V` fields. -/
lemma blockNext_V (P : Params) (Px Py NxG NyG : ℕ) (sx sy : ℕ → ℕ)
    (hsx : ∀ k, k < Px → 0 < sx k) (hsy : ∀ k, k < Py → 0 < sy k)
    (hNx : displ sx Px = NxG) (hNy : displ sy Py = NyG)
    (SU SV : ℕ → ℕ → Grid) (GU GV : Grid)
    (hU : ∀ a b, a < Px → b < Py → ∀ x y, x < sx a → y < sy b →
        SU a b x y = GU (displ sx a + x) (displ sy b + y))
    (hV : ∀ a b, a < Px → b < Py → ∀ x y, x < sx a → y < sy b →
        SV a b x y = GV (displ sx a + x) (displ sy b + y))
    (p q i j : ℕ) (hp : p < Px) (hq : q < Py) (hi : i < sx p) (hj : j < sy q) :
    nextVelocityState P (sx p) (sy q) (SU p q) (SV p q)
        (blockHalo Px Py sx sy SV p q) false i j
      = nextVelocityState P NxG NyG GU GV zeroHalo false
          (displ sx p + i) (displ sy q + j) := by
  have hd2x : displ sx (p + 1) = displ sx p + sx p := displ_succ sx p
  have hd2y : displ sy (q + 1) = displ sy q + sy q := displ_succ sy q
  have hlex : displ sx (p + 1) ≤ displ sx Px := displ_le sx (by omega)
  have hley : displ sy (q + 1) ≤ displ sy Py := displ_le sy (by omega)
  have hgi : displ sx p + i < NxG := by omega
  have hgj : displ sy q + j < NyG := by omega
  rw [nextVelocityState_closed P (sx p) (sy q) (SU p q) (SV p q)
      (blockHalo Px Py sx sy SV p q) false i j hi hj,
    nextVelocityState_closed P NxG NyG GU GV zeroHalo false
      (displ sx p + i) (displ sy q + j) hgi hgj]
  simp only [velAlias, otherAlias, zeroHalo, setZeroes]
  rw [read_left Px Py NxG sx sy hsx hNx SV GV hV p q i j hp hq hi hj,
    read_right Px Py NxG sx sy hsx hNx SV GV hV p q i j hp hq hi hj,
    read_up Px Py NyG sx sy hsy hNy SV GV hV p q i j hp hq hi hj,
    read_down Px Py NyG sx sy hsy hNy SV GV hV p q i j hp hq hi hj,
    hU p q hp hq i j hi hj, hV p q hp hq i j hi hj]

/-- Step-by-step invariant: every block of the multi-worker run holds
the restriction of the single-worker run's global fields. -/
lemma multiRun_agrees (P : Params) (Px Py NxG NyG : ℕ) (sx sy : ℕ → ℕ)
    (hsx : ∀ k, k < Px → 0 < sx k) (hsy : ∀ k, k < Py → 0 < sy k)
    (hNx : displ sx Px = NxG) (hNy : displ sy Py = NyG)
    (GU GV : Grid) (n : ℕ) :
    ∀ p q i j, p < Px → q < Py → i < sx p → j < sy q →
      ((multiRun P Px Py sx sy (restrState sx sy GU GV) n) p q).1 i j
          = (singleRun P NxG NyG GU GV n).1 (displ sx p + i) (displ sy q + j)
        ∧ ((multiRun P Px Py sx sy (restrState sx sy GU GV) n) p q).2 i j
          = (singleRun P NxG NyG GU GV n).2 (displ sx p + i) (displ sy q + j) := by
  induction n with
  | zero =>
    intro p q i j _ _ _ _
    exact ⟨rfl, rfl⟩
  | succ n ih =>
    intro p q i j hp hq hi hj
    have hU1 : ∀ a b, a < Px → b < Py → ∀ x y, x < sx a → y < sy b →
        (multiRun P Px Py sx sy (restrState sx sy GU GV) n a b).1 x y
          = (singleRun P NxG NyG GU GV n).1 (displ sx a + x) (displ sy b + y) :=
      fun a b ha hb x y hx hy => (ih a b x y ha hb hx hy).1
    have hV1 : ∀ a b, a < Px → b < Py → ∀ x y, x < sx a → y < sy b →
        (multiRun P Px Py sx sy (restrState sx sy GU GV) n a b).2 x y
          = (singleRun P NxG NyG GU GV n).2 (displ sx a + x) (displ sy b + y) :=
      fun a b ha hb x y hx hy => (ih a b x y ha hb hx hy).2
    constructor
    · exact blockNext_U P Px Py NxG NyG sx sy hsx hsy hNx hNy
        (fun a b => (multiRun P Px Py sx sy (restrState sx sy GU GV) n a b).1)
        (fun a b => (multiRun P Px Py sx sy (restrState sx sy GU GV) n a b).2)
        (singleRun P NxG NyG GU GV n).1 (singleRun P NxG NyG GU GV n).2
        hU1 hV1 p q i j hp hq hi hj
    · exact blockNext_V P Px Py NxG NyG sx sy hsx hsy hNx hNy
        (fun a b => (multiRun P Px Py sx sy (restrState sx sy GU GV) n a b).1)
        (fun a b => (multiRun P Px Py sx sy (restrState sx sy GU GV) n a b).2)
        (singleRun P NxG NyG GU GV n).1 (singleRun P NxG NyG GU GV n).2
        hU1 hV1 p q i j hp hq hi hj

/-- C1: for every local field pair, halo, component selector and cell
index `k` of the flattened column-major buffer, the next-state buffer
returned by `NextVelocityState` satisfies
`NextVel[k] = Vel[k] + dt*(dVel_dx_2[k] + dVel_dy_2[k] - dVel_dx[k] -
dVel_dy[k] - (Vel_Vel[k] + Vel_Other[k] - Vel_Vel_Minus_1[k] -
Vel_Other_Minus_1[k]))`, the arrays being the boundary-corrected ones. -/
theorem c1_next_state_combination (P : Params) (nxr nyr : ℕ) (Ui Vi : Grid)
    (h : Halo) (sel : Bool) (k : ℕ) :
    flat nyr (nextVelocityState P nxr nyr Ui Vi h sel) k
      = flat nyr (velAlias Ui Vi sel) k
        + P.dt * (flat nyr (dVel_dx_2_corr P nxr (velAlias Ui Vi sel) h) k
            + flat nyr (dVel_dy_2_corr P nyr (velAlias Ui Vi sel) h) k
            - flat nyr (dVel_dx_corr P nxr (velAlias Ui Vi sel) h) k
            - flat nyr (dVel_dy_corr P nyr (velAlias Ui Vi sel) h) k
            - (flat nyr (velVel P (velAlias Ui Vi sel) sel) k
                + flat nyr (velOther P (velAlias Ui Vi sel) (otherAlias Ui Vi sel) sel) k
                - flat nyr (velVelMinus1 P (velAlias Ui Vi sel) h sel) k
                - flat nyr (velOtherMinus1 P (velAlias Ui Vi sel)
                    (otherAlias Ui Vi sel) h sel) k)) := by
  unfold flat nextVelocityState
  ring

/-- C2: a single-worker run (`Px = Py = 1`, no neighbours, zero halos)
produces at every global cell the same value as any `Px × Py`
decomposition of the same grid after the same number of steps, with the
halo exchange modelled as copying the neighbouring sub-block's boundary
row/column, in exact arithmetic. -/
theorem c2_decomposition_matches_single (P : Params) (Px Py NxG NyG : ℕ)
    (sx sy : ℕ → ℕ) (GU GV : Grid) (n p q i j : ℕ)
    (hsx : ∀ k, k < Px → 0 < sx k) (hsy : ∀ k, k < Py → 0 < sy k)
    (hNx : displ sx Px = NxG) (hNy : displ sy Py = NyG)
    (hp : p < Px) (hq : q < Py) (hi : i < sx p) (hj : j < sy q) :
    ((multiRun P Px Py sx sy (restrState sx sy GU GV) n) p q).1 i j
        = (singleRun P NxG NyG GU GV n).1 (displ sx p + i) (displ sy q + j)
      ∧ ((multiRun P Px Py sx sy (restrState sx sy GU GV) n) p q).2 i j
        = (singleRun P NxG NyG GU GV n).2 (displ sx p + i) (displ sy q + j) :=
  multiRun_agrees P Px Py NxG NyG sx sy hsx hsy hNx hNy GU GV n p q i j hp hq hi hj

/-- Concrete parameters used to instantiate the decomposition theorem. -/
def wParams : Params := ⟨1, 1, 1, 1, 1, 1, 1⟩

/-- A two-block column decomposition: block extents `1` in x. -/
def wsx : ℕ → ℕ := fun _ => 1

/-- One block of extent `2` in y. -/
def wsy : ℕ → ℕ := fun _ => 2

/-- A concrete global initial `U` field. -/
def wGU : Grid := fun i j => (i : ℚ) + 2 * (j : ℚ)

/-- A concrete global initial `V` field. -/
def wGV : Grid := fun i j => (i : ℚ) - (j : ℚ)

/-- Witness for C2: a `2 × 1` decomposition of a `2 × 2` interior grid
agrees with the single-worker run after one step at block `(1,0)`,
cell `(0,1)`. -/
theorem c2_witness :
    ((multiRun wParams 2 1 wsx wsy (restrState wsx wsy wGU wGV) 1) 1 0).1 0 1
        = (singleRun wParams 2 2 wGU wGV 1).1 (displ wsx 1 + 0) (displ wsy 0 + 1)
      ∧ ((multiRun wParams 2 1 wsx wsy (restrState wsx wsy wGU wGV) 1) 1 0).2 0 1
        = (singleRun wParams 2 2 wGU wGV 1).2 (displ wsx 1 + 0) (displ wsy 0 + 1) :=
  c2_decomposition_matches_single wParams 2 1 2 2 wsx wsy wGU wGV 1 1 0 0 1
    (by decide) (by decide) (by decide) (by decide)
    (by decide) (by decide) (by decide) (by decide)

/-- C3: with in-range argument count but `ax = -1` (out of range), the
`Model` constructor does not abort: it returns normally with `aborted =
false`, `SetNumerics` never ran (`dx, dy, dt` undefined), and only a
warning diagnostic was printed — the run then proceeds to stepping. -/
theorem c3_invalid_args_do_not_abort :
    (modelConstruct true ⟨-1, 0, 0, 0, 1, 1, 1⟩).aborted = false
  ∧ (modelConstruct true ⟨-1, 0, 0, 0, 1, 1, 1⟩).numericsSet = false
  ∧ (modelConstruct true ⟨-1, 0, 0, 0, 1, 1, 1⟩).diagnosticPrinted = true := by
  decide

/-- A constant-one local field. -/
def wOnes : Grid := fun _ _ => 1

/-- Parameters with `dx = dy = 1/2`, so the cell area is `1/4`. -/
def wP4 : Params := ⟨1, 1 / 2, 1 / 2, 0, 0, 0, 0⟩

/-- C4 counterexample: the `SetEnergy` of the unpartitioned variant
`src/Burgers.cpp` does not equal `0.5*(U·U + V·V)*dx*dy` — on a `1 × 1`
field of ones with `dx = dy = 1/2` it returns `1`, not `1/4`: the
`dx*dy` factor is missing there. -/
theorem c4_root_energy_missing_area :
    rootSetEnergy 1 1 wOnes wOnes ≠ localEnergyState wP4 ⟨1, 1, wOnes, wOnes⟩ := by
  norm_num [rootSetEnergy, localEnergyState, ddot, flat, wOnes, wP4,
    Finset.sum_range_one]

/-- C4 (amended): the parallel `CalculateEnergyState` returns, on every
rank, the sum over all workers of `0.5*(U·U + V·V)*dx*dy`, every rank
holding the identical value; the serial `serSrc` `SetEnergy` computes
the same `dx*dy`-scaled formula for its single worker. -/
theorem c4_energy_reduction (P : Params) (ws : List Worker) (r rr : ℕ)
    (nxr nyr : ℕ) (Ui Vi : Grid) :
    calculateEnergyState P ws r
        = (ws.map (fun w => (1 / 2)
            * (ddot (w.nyr * w.nxr) (flat w.nyr w.Ui) (flat w.nyr w.Ui)
                + ddot (w.nyr * w.nxr) (flat w.nyr w.Vi) (flat w.nyr w.Vi))
            * (P.dx * P.dy))).sum
      ∧ calculateEnergyState P ws r = calculateEnergyState P ws rr
      ∧ serSetEnergy P nxr nyr Ui Vi
          = (1 / 2) * (ddot (nyr * nxr) (flat nyr Ui) (flat nyr Ui)
              + ddot (nyr * nxr) (flat nyr Vi) (flat nyr Vi)) * (P.dx * P.dy) :=
  ⟨rfl, rfl, rfl⟩

/-- C5: after `SetCaches`, every direction whose neighbour rank is the
no-neighbour sentinel (negative) has an all-zero halo buffer, whatever
the exchange wrote into the receive buffers. -/
theorem c5_halo_zero_fill (nb : Neighbors) (recv : Halo) :
    (nb.up < 0 → ∀ i, (setCaches nb recv).up i = 0)
  ∧ (nb.down < 0 → ∀ i, (setCaches nb recv).down i = 0)
  ∧ (nb.left < 0 → ∀ j, (setCaches nb recv).left j = 0)
  ∧ (nb.right < 0 → ∀ j, (setCaches nb recv).right j = 0) := by
  refine ⟨fun h i => ?_, fun h i => ?_, fun h j => ?_, fun h j => ?_⟩ <;>
    simp [setCaches, setZeroes, h]

/-- A receive buffer holding nonzero garbage. -/
def wRecv : Halo := ⟨fun _ => 37, fun _ => 37, fun _ => 37, fun _ => 37⟩

/-- Witness for C5: a worker whose four neighbour ranks are all the
sentinel observes zero in each halo buffer even though the receive
buffers held `37`. -/
theorem c5_witness :
    (setCaches ⟨-1, -1, -1, -1⟩ wRecv).up 0 = 0
  ∧ (setCaches ⟨-1, -1, -1, -1⟩ wRecv).down 0 = 0
  ∧ (setCaches ⟨-1, -1, -1, -1⟩ wRecv).left 0 = 0
  ∧ (setCaches ⟨-1, -1, -1, -1⟩ wRecv).right 0 = 0 := by
  have h := c5_halo_zero_fill ⟨-1, -1, -1, -1⟩ wRecv
  exact ⟨h.1 (by decide) 0, h.2.1 (by decide) 0, h.2.2.1 (by decide) 0,
    h.2.2.2 (by decide) 0⟩

/-- C6: in every step of `SetIntegratedVelocity`, the committed pair is
`(NextVelocityState(U_k, V_k, true), NextVelocityState(U_k, V_k, false))`
where `(U_k, V_k)` is the state after `k` steps: both components are
computed from the same prior-step pair — with the halo of each taken
from its own prior-step field — and are committed together. -/
theorem c6_snapshot_then_commit (P : Params) (nxr nyr : ℕ) (haloOf : Grid → Halo)
    (UV0 : Grid × Grid) (k : ℕ) :
    setIntegratedVelocity P nxr nyr haloOf UV0 (k + 1)
      = (nextVelocityState P nxr nyr
            (setIntegratedVelocity P nxr nyr haloOf UV0 k).1
            (setIntegratedVelocity P nxr nyr haloOf UV0 k).2
            (haloOf (setIntegratedVelocity P nxr nyr haloOf UV0 k).1) true,
         nextVelocityState P nxr nyr
            (setIntegratedVelocity P nxr nyr haloOf UV0 k).1
            (setIntegratedVelocity P nxr nyr haloOf UV0 k).2
            (haloOf (setIntegratedVelocity P nxr nyr haloOf UV0 k).2) false) :=
  rfl

/-- C7: the nonlinear term coefficients are assigned per component as
required: solving for u, the self term and own-direction backward term
use `b/dx` while the cross term and cross-direction backward term use
`b/dy`; solving for v, the assignments are swapped. -/
theorem c7_nonlinear_coefficients (P : Params) (Ui Vi : Grid) (h : Halo) (i j : ℕ) :
    velVel P Ui true i j = P.b / P.dx * Ui i j * Ui i j
  ∧ velOther P Ui Vi true i j = P.b / P.dy * Ui i j * Vi i j
  ∧ velVelMinus1 P Ui h true i j
      = P.b / P.dx * (if i = 0 then h.left j else Ui (i - 1) j) * Ui i j
  ∧ velOtherMinus1 P Ui Vi h true i j
      = P.b / P.dy * (if j = 0 then h.up i else Ui i (j - 1)) * Vi i j
  ∧ velVel P Vi false i j = P.b / P.dy * Vi i j * Vi i j
  ∧ velOther P Vi Ui false i j = P.b / P.dx * Vi i j * Ui i j
  ∧ velVelMinus1 P Vi h false i j
      = P.b / P.dy * (if j = 0 then h.up i else Vi i (j - 1)) * Vi i j
  ∧ velOtherMinus1 P Vi Ui h false i j
      = P.b / P.dx * (if i = 0 then h.left j else Vi (i - 1) j) * Ui i j :=
  ⟨velVel_point P Ui true i j, velOther_point P Ui Vi true i j,
    velVelMinus1_point P Ui h true i j, velOtherMinus1_point P Ui Vi h true i j,
    velVel_point P Vi false i j, velOther_point P Vi Ui false i j,
    velVelMinus1_point P Vi h false i j, velOtherMinus1_point P Vi Ui h false i j⟩

/-- C8: for every extent `n > 0`, spacing `h > 0` and diffusion
coefficient `c`, the second-derivative operator built by
`SetMatrixCoefficients` has every diagonal entry `-2c/h²`, every first
off-diagonal entry `c/h²`, zero elsewhere, and is symmetric. -/
theorem c8_operator_entries_symmetric (c h : ℚ) (n k l : ℕ)
    (hn : 0 < n) (hh : 0 < h) (hk : k < n) (hl : l < n) :
    (genSymm ((-2) * c / h ^ 2) (c / h ^ 2) k l
        = if k = l then (-2) * c / h ^ 2
          else if k + 1 = l ∨ l + 1 = k then c / h ^ 2 else 0)
  ∧ genSymm ((-2) * c / h ^ 2) (c / h ^ 2) k l
      = genSymm ((-2) * c / h ^ 2) (c / h ^ 2) l k :=
  ⟨rfl, genSymm_symm ((-2) * c / h ^ 2) (c / h ^ 2) k l⟩

/-- Witness for C8: the `2 × 2` operator with `h = 1`, `c = 1` at entry
`(0, 1)`. -/
theorem c8_witness :
    (genSymm ((-2) * 1 / 1 ^ 2) ((1 : ℚ) / 1 ^ 2) 0 1
        = if (0 : ℕ) = 1 then (-2) * 1 / 1 ^ 2
          else if 0 + 1 = 1 ∨ 1 + 1 = 0 then (1 : ℚ) / 1 ^ 2 else 0)
  ∧ genSymm ((-2) * 1 / 1 ^ 2) ((1 : ℚ) / 1 ^ 2) 0 1
      = genSymm ((-2) * 1 / 1 ^ 2) ((1 : ℚ) / 1 ^ 2) 1 0 :=
  c8_operator_entries_symmetric 1 1 2 0 1 (by decide) (by decide)
    (by decide) (by decide)

/-- C9: after `SetInitialVelocity` the two component arrays are
identical — `U[k] = V[k]` at every cell — and both hold the radial bump
`2*(1-r)^4*(4r+1)` where `r ≤ 1` and `0` elsewhere, with `r` the value
of `ComputeR` at the cell's grid point. -/
theorem c9_initial_u_equals_v (R : ℕ → ℕ → ℚ) (i j : ℕ) :
    setInitialVelocityU R i j = setInitialVelocityV R i j
  ∧ setInitialVelocityU R i j
      = (if R i j ≤ 1 then 2 * (1 - R i j) ^ 4 * (4 * R i j + 1) else 0) :=
  ⟨rfl, rfl⟩

/-- C10: the first loop iterate `(i, j) = (0, 0)` of the unpartitioned
variant's `SetInitialVelocity` with `Nx = Ny = 10` writes at flattened
index `(0-1)*(Ny-2)+(0-1) = -9`, outside the `U0` buffer bounds
`[0, (Nx-2)*(Ny-2)) = [0, 64)`. -/
theorem c10_write_index_out_of_bounds :
    rootWriteIndex 10 0 0 = -9
  ∧ ¬ (0 ≤ rootWriteIndex 10 0 0
        ∧ rootWriteIndex 10 0 0 < (10 - 2) * (10 - 2)) := by
  decide
